import Mathlib

/-!
Shallow embedding of the genetic-algorithm TSP core of `src/api/index.py`:
geometry, the fitness evaluator, population initialization, the OX1
crossover, swap mutation, and the per-call evolution loop.  Python floats
are modelled by real numbers.  Randomness is modelled by explicit oracles:
each oracle value stands for one draw of Python's `random` module, reduced
to the discrete range the source derives from it (for example
`int(random.random() * n)` is modelled by `r % n`, which ranges over
exactly the values the source expression can take for `n ≥ 1`).
Python exceptions (out-of-range indexing, `random.choice` on an empty
sequence) are modelled by `Option`, with `none` standing for a raised
exception.
-/

open List

/-- Model of the `Point` pydantic model: a city or an obstacle centre. -/
structure Point where
  x : ℝ
  y : ℝ

/-- Model of the `Obstacle` pydantic model: a circular exclusion zone. -/
structure Obstacle where
  x : ℝ
  y : ℝ
  radius : ℝ

/-- Model of the `EvolveResponse` pydantic model returned by `evolve`. -/
structure EvolveResponse where
  population : List (List Nat)
  best_route : List Nat
  best_distance : ℝ
  generation : Nat

/-- Model of `calculate_distance`: Euclidean distance between two points. -/
noncomputable def calculate_distance (city1 city2 : Point) : ℝ :=
  Real.sqrt ((city1.x - city2.x) ^ 2 + (city1.y - city2.y) ^ 2)

/-- Model of `line_intersects_circle`: the closest point of the clamped
segment `[p1, p2]` to the circle centre lies strictly inside the disk.
A zero-length segment (`dx == 0 and dy == 0`) returns `false`. -/
noncomputable def line_intersects_circle (p1 p2 : Point) (circle : Obstacle) : Bool :=
  let dx := p2.x - p1.x
  let dy := p2.y - p1.y
  if dx = 0 ∧ dy = 0 then false
  else
    let t := ((circle.x - p1.x) * dx + (circle.y - p1.y) * dy) / (dx * dx + dy * dy)
    let t1 := max 0 (min 1 t)
    let closest_x := p1.x + t1 * dx
    let closest_y := p1.y + t1 * dy
    let dist_sq := (closest_x - circle.x) ^ 2 + (closest_y - circle.y) ^ 2
    decide (dist_sq < circle.radius ^ 2)

/-- Endpoints of edge `i` of the closed tour: city `route[i]` to city
`route[(i + 1) % len(route)]` (the `% len` realises the wrap-around of the
source).  Out-of-range reads return a default, modelling accesses the
source never performs on valid input. -/
noncomputable def edgeEnds (route : List Nat) (cities : List Point) (i : Nat) : Point × Point :=
  (cities.getD (route.getD i 0) ⟨0, 0⟩,
   cities.getD (route.getD ((i + 1) % route.length) 0) ⟨0, 0⟩)

/-- Penalty one edge accrues in `get_route_distance`: 10000 for every
obstacle the edge intersects. -/
noncomputable def edgePenalty (obstacles : List Obstacle) (p q : Point) : ℝ :=
  (obstacles.map (fun obs => if line_intersects_circle p q obs then (10000 : ℝ) else 0)).sum

/-- Model of `get_route_distance`: the `dist` accumulator sums the
Euclidean length of every edge of the closed tour, the `penalty`
accumulator adds 10000 per intersecting (edge, obstacle) pair, and the
result is `dist + penalty`. -/
noncomputable def get_route_distance (route_indices : List Nat) (cities : List Point)
    (obstacles : List Obstacle) : ℝ :=
  let dist := ((List.range route_indices.length).map (fun i =>
    calculate_distance (edgeEnds route_indices cities i).1 (edgeEnds route_indices cities i).2)).sum
  let penalty := ((List.range route_indices.length).map (fun i =>
    edgePenalty obstacles (edgeEnds route_indices cities i).1 (edgeEnds route_indices cities i).2)).sum
  dist + penalty

/-- Route cost exactly as the spec words it: sum over all consecutive pairs
(including the wrap-around edge) of the Euclidean distance, plus 10000
times the number of (edge, obstacle) pairs for which
`segmentIntersectsCircle` holds.  Stated from the spec to compare with
`get_route_distance`, which is stated from the source. -/
noncomputable def routeCostSpec (route : List Nat) (cities : List Point)
    (obstacles : List Obstacle) : ℝ :=
  ((List.range route.length).map (fun i =>
    calculate_distance (edgeEnds route cities i).1 (edgeEnds route cities i).2)).sum
  + 10000 * ((List.range route.length).map (fun i =>
      ((obstacles.countP (fun obs =>
        line_intersects_circle (edgeEnds route cities i).1 (edgeEnds route cities i).2 obs)) : ℝ))).sum

theorem edgePenalty_eq_countP (obstacles : List Obstacle) (p q : Point) :
    edgePenalty obstacles p q =
      10000 * ((obstacles.countP (fun obs => line_intersects_circle p q obs) : ℕ) : ℝ) := by
  induction obstacles with
  | nil => simp [edgePenalty]
  | cons o rest ih =>
    by_cases h : line_intersects_circle p q o
    · simp [edgePenalty, countP_cons, h] at ih ⊢
      rw [ih]; ring
    · simp [edgePenalty, countP_cons, h] at ih ⊢
      rw [ih]

theorem edgePenalty_nonneg (obstacles : List Obstacle) (p q : Point) :
    0 ≤ edgePenalty obstacles p q := by
  rw [edgePenalty_eq_countP]
  positivity

theorem get_route_distance_nonneg (route : List Nat) (cities : List Point)
    (obstacles : List Obstacle) : 0 ≤ get_route_distance route cities obstacles := by
  simp only [get_route_distance]
  have h1 : 0 ≤ ((List.range route.length).map (fun i =>
      calculate_distance (edgeEnds route cities i).1 (edgeEnds route cities i).2)).sum := by
    apply List.sum_nonneg
    intro x hx
    simp only [List.mem_map] at hx
    obtain ⟨i, _, rfl⟩ := hx
    exact Real.sqrt_nonneg _
  have h2 : 0 ≤ ((List.range route.length).map (fun i =>
      edgePenalty obstacles (edgeEnds route cities i).1 (edgeEnds route cities i).2)).sum := by
    apply List.sum_nonneg
    intro x hx
    simp only [List.mem_map] at hx
    obtain ⟨i, _, rfl⟩ := hx
    exact edgePenalty_nonneg _ _ _
  linarith

/-- C5: for every non-empty valid route, `get_route_distance` equals the
spec's formula — closed-tour Euclidean length plus 10000 per intersecting
(edge, obstacle) pair — and is non-negative. -/
theorem c5_route_cost_formula (route : List Nat) (cities : List Point)
    (obstacles : List Obstacle) (hne : route ≠ [])
    (hvalid : ∀ k ∈ route, k < cities.length) :
    get_route_distance route cities obstacles = routeCostSpec route cities obstacles ∧
    0 ≤ get_route_distance route cities obstacles := by
  refine ⟨?_, get_route_distance_nonneg _ _ _⟩
  unfold get_route_distance routeCostSpec
  have hpen : ∀ i : ℕ,
      edgePenalty obstacles (edgeEnds route cities i).1 (edgeEnds route cities i).2 =
      10000 * (((obstacles.countP (fun obs =>
        line_intersects_circle (edgeEnds route cities i).1 (edgeEnds route cities i).2 obs)) : ℕ) : ℝ) :=
    fun i => edgePenalty_eq_countP _ _ _
  simp only [hpen]
  rw [← List.sum_map_mul_left]

/-- C5 witness: a concrete two-city route satisfying the hypotheses. -/
theorem c5_route_cost_formula_witness :
    get_route_distance [0, 1] [⟨0, 0⟩, ⟨1, 0⟩] [] = routeCostSpec [0, 1] [⟨0, 0⟩, ⟨1, 0⟩] [] ∧
    0 ≤ get_route_distance [0, 1] [⟨0, 0⟩, ⟨1, 0⟩] [] :=
  c5_route_cost_formula [0, 1] [⟨0, 0⟩, ⟨1, 0⟩] [] (by decide)
    (by intro k hk; fin_cases hk <;> decide)

/-- C8: a zero-length segment never intersects any circle:
`line_intersects_circle p p circle` is `false` for every point and obstacle. -/
theorem c8_degenerate_segment (p : Point) (circle : Obstacle) :
    line_intersects_circle p p circle = false := by
  simp [line_intersects_circle]

/-- Swap of the entries at positions `i` and `j` of a list: the building
block of `random.shuffle` and of the swap mutation
(`route[i], route[swap_with] = route[swap_with], route[i]`). -/
def swapAt (l : List Nat) (i j : Nat) : List Nat :=
  (l.set i (l.getD j 0)).set j (l.getD i 0)

/-- Model of `random.shuffle` (CPython's Fisher–Yates): for `i` from
`len - 1` down to `1`, draw `j = int(random.random() * (i + 1))` and swap
positions `i` and `j`.  The oracle value `r i` models the draw for
position `i`; `r i % (i + 1)` ranges over exactly `[0, i]`, the values the
source draw can take. -/
def shuffleGo (r : Nat → Nat) : Nat → List Nat → List Nat
  | 0, l => l
  | i + 1, l => shuffleGo r i (swapAt l (i + 1) (r (i + 1) % (i + 2)))

/-- Model of `random.shuffle` applied to a whole list. -/
def shuffle (l : List Nat) (r : Nat → Nat) : List Nat :=
  shuffleGo r (l.length - 1) l

/-- Helper of `create_initial_population`: the working list `indices` is
shuffled in place once per individual and a copy appended each time; `k`
numbers the individuals so each shuffle gets its own oracle `r k`. -/
def createPopGo (r : Nat → Nat → Nat) : Nat → Nat → List Nat → List (List Nat)
  | _, 0, _ => []
  | k, m + 1, indices =>
    let shuffled := shuffle indices (r k)
    shuffled :: createPopGo r (k + 1) m shuffled

/-- Model of `create_initial_population`: starting from
`list(range(n_cities))`, shuffle and append a copy, `pop_size` times. -/
def create_initial_population (pop_size n_cities : Nat) (r : Nat → Nat → Nat) :
    List (List Nat) :=
  createPopGo r 0 pop_size (List.range n_cities)

/-- Model of `mutate` (swap mutation): for each position `i`, when the
oracle `fire i` (modelling `random.random() < mutation_rate`) is true, swap
position `i` with `tgt i % len(route)` (modelling
`int(random.random() * len(route))`). -/
def mutate (route : List Nat) (fire : Nat → Bool) (tgt : Nat → Nat) : List Nat :=
  (List.range route.length).foldl
    (fun acc i => if fire i then swapAt acc i (tgt i % acc.length) else acc) route

theorem swapAt_length (l : List Nat) (i j : Nat) : (swapAt l i j).length = l.length := by
  simp [swapAt]

theorem cons_set_perm : ∀ (xs : List Nat) (j : Nat), j < xs.length → ∀ x : Nat,
    (xs.getD j 0 :: xs.set j x).Perm (x :: xs)
  | [], j, hj, x => absurd hj (by simp)
  | y :: ys, 0, _, x => by
    simpa using List.Perm.swap x y ys
  | y :: ys, j + 1, hj, x => by
    have hj' : j < ys.length := by simpa using hj
    have ih := cons_set_perm ys j hj' x
    calc (y :: ys).getD (j + 1) 0 :: (y :: ys).set (j + 1) x
        = ys.getD j 0 :: y :: ys.set j x := by simp
      _ ~ y :: ys.getD j 0 :: ys.set j x := List.Perm.swap _ _ _
      _ ~ y :: x :: ys := ih.cons y
      _ ~ x :: y :: ys := List.Perm.swap _ _ _

theorem swapAt_perm : ∀ (l : List Nat) (i j : Nat), i < l.length → j < l.length →
    (swapAt l i j).Perm l
  | [], i, _, hi, _ => absurd hi (by simp)
  | x :: xs, 0, 0, _, _ => by simp [swapAt]
  | x :: xs, 0, k + 1, _, hj => by
    have hk : k < xs.length := by simpa using hj
    simpa [swapAt] using cons_set_perm xs k hk x
  | x :: xs, m + 1, 0, hi, _ => by
    have hm : m < xs.length := by simpa using hi
    simpa [swapAt] using cons_set_perm xs m hm x
  | x :: xs, m + 1, k + 1, hi, hj => by
    have hm : m < xs.length := by simpa using hi
    have hk : k < xs.length := by simpa using hj
    simpa [swapAt] using (swapAt_perm xs m k hm hk).cons x

theorem shuffleGo_perm (r : Nat → Nat) :
    ∀ (fuel : Nat) (l : List Nat), fuel < l.length → (shuffleGo r fuel l).Perm l
  | 0, l, _ => List.Perm.refl l
  | i + 1, l, h => by
    have hi : i + 1 < l.length := h
    have hj : r (i + 1) % (i + 2) < l.length :=
      lt_of_lt_of_le (Nat.mod_lt _ (by omega)) (by omega)
    have hswap := swapAt_perm l (i + 1) (r (i + 1) % (i + 2)) hi hj
    have hlen : (swapAt l (i + 1) (r (i + 1) % (i + 2))).length = l.length :=
      swapAt_length l _ _
    exact (shuffleGo_perm r i _ (by omega)).trans hswap

theorem shuffle_perm (l : List Nat) (r : Nat → Nat) : (shuffle l r).Perm l := by
  unfold shuffle
  rcases l with _ | ⟨x, xs⟩
  · exact List.Perm.refl _
  · exact shuffleGo_perm r _ _ (by simp)

theorem createPopGo_perm (r : Nat → Nat → Nat) (n : Nat) :
    ∀ (m k : Nat) (indices : List Nat), indices.Perm (List.range n) →
      ∀ route ∈ createPopGo r k m indices, route.Perm (List.range n)
  | 0, _, _, _ => by simp [createPopGo]
  | m + 1, k, indices, hperm => by
    intro route hroute
    have hshuf : (shuffle indices (r k)).Perm (List.range n) :=
      (shuffle_perm indices (r k)).trans hperm
    simp only [createPopGo, List.mem_cons] at hroute
    rcases hroute with rfl | hmem
    · exact hshuf
    · exact createPopGo_perm r n m (k + 1) _ hshuf route hmem

theorem create_initial_population_perm (pop_size n_cities : Nat) (r : Nat → Nat → Nat) :
    ∀ route ∈ create_initial_population pop_size n_cities r, route.Perm (List.range n_cities) :=
  createPopGo_perm r n_cities pop_size 0 (List.range n_cities) (List.Perm.refl _)

theorem mutate_perm (route : List Nat) (fire : Nat → Bool) (tgt : Nat → Nat) :
    (mutate route fire tgt).Perm route := by
  unfold mutate
  have main : ∀ (is : List Nat) (acc : List Nat), (∀ i ∈ is, i < acc.length) →
      (is.foldl (fun acc i => if fire i then swapAt acc i (tgt i % acc.length) else acc)
        acc).Perm acc := by
    intro is
    induction is with
    | nil => intro acc _; exact List.Perm.refl acc
    | cons i is ih =>
      intro acc hbound
      have hi : i < acc.length := hbound i (List.mem_cons_self i is)
      have hstep : (if fire i then swapAt acc i (tgt i % acc.length) else acc).Perm acc := by
        by_cases hf : fire i
        · simp only [hf, if_true]
          exact swapAt_perm acc i _ hi (Nat.mod_lt _ (by omega))
        · simp [hf]
      have hlen : (if fire i then swapAt acc i (tgt i % acc.length) else acc).length =
          acc.length := hstep.length_eq
      have hbound' : ∀ j ∈ is, j <
          (if fire i then swapAt acc i (tgt i % acc.length) else acc).length := by
        intro j hj; rw [hlen]; exact hbound j (List.mem_cons_of_mem i hj)
      simp only [List.foldl_cons]
      exact (ih _ hbound').trans hstep
  exact main (List.range route.length) route (by intro i hi; simpa using hi)

/-- Inner scan of the OX1 fill loop (`while parent2[p2_index] in child:
p2_index += 1`): advance `idx` past every value of `parent2` already
present in the child, returning the first index holding an unused value;
`none` models the `IndexError` the source would raise if the scan ran off
the end of `parent2`. -/
def scanNext (child : List (Option Nat)) (p2 : List Nat) (idx : Nat) : Option Nat :=
  if idx < p2.length then
    if some (p2.getD idx 0) ∈ child then scanNext child p2 (idx + 1) else some idx
  else none
termination_by p2.length - idx

/-- Outer fill loop of `breed` (`for i in range(len(child)): if child[i] is
None: ...`): for each still-unset slot, find the next unused value of
`parent2` with `scanNext` and place it; the scan index persists across
iterations exactly as `p2_index` does in the source. -/
def fillChild (p2 : List Nat) (child : List (Option Nat)) (i idx : Nat) :
    Option (List (Option Nat)) :=
  if i < child.length then
    match child.getD i none with
    | some _ => fillChild p2 child (i + 1) idx
    | none =>
      match scanNext child p2 idx with
      | none => none
      | some k => fillChild p2 (child.set i (some (p2.getD k 0))) (i + 1) k
  else some child
termination_by child.length - i
decreasing_by all_goals simp_all; omega

/-- Model of `breed` (Ordered Crossover, OX1): draw the two cut points
`int(random.random() * len(parent1))` (modelled by `c1 % n`, `c2 % n`),
order them, copy `parent1[start:end)` into the child, then fill the
remaining slots from `parent2` in order, skipping values already present.
`none` models the `IndexError` of the fill scan; on success the fully
filled child is returned as a plain route. -/
def breed (parent1 parent2 : List Nat) (c1 c2 : Nat) : Option (List Nat) :=
  let n := parent1.length
  let start := min (c1 % n) (c2 % n)
  let stop := max (c1 % n) (c2 % n)
  let child0 := (List.range n).map (fun i =>
    if start ≤ i ∧ i < stop then some (parent1.getD i 0) else none)
  (fillChild parent2 child0 0 0).map (fun c => c.map (fun o => o.getD 0))

theorem getD_of_lt {α : Type} (l : List α) (d : α) {i : Nat} (h : i < l.length) :
    l.getD i d = l[i] := by
  simp [List.getElem?_eq_getElem h]

theorem getD_set_ne {α : Type} (l : List α) (d a : α) {i j : Nat} (h : i ≠ j) :
    (l.set i a).getD j d = l.getD j d := by
  simp [List.getElem?_set_ne h]

theorem mem_filterMap_id {child : List (Option Nat)} {v : Nat} :
    v ∈ child.filterMap id ↔ some v ∈ child := by
  simp [List.mem_filterMap]

theorem filterMap_set_none_perm : ∀ (child : List (Option Nat)) (i : Nat) (v : Nat),
    i < child.length → child.getD i none = none →
    ((child.set i (some v)).filterMap id).Perm (v :: child.filterMap id)
  | [], i, v, hi, _ => absurd hi (by simp)
  | c :: cs, 0, v, _, h0 => by
    simp only [List.getD_eq_getElem?_getD, List.getElem?_cons_zero, Option.getD_some] at h0
    subst h0
    simp [List.filterMap_cons]
  | c :: cs, i + 1, v, hi, h0 => by
    have hi' : i < cs.length := by simpa using hi
    have h0' : cs.getD i none = none := by simpa using h0
    have ih := filterMap_set_none_perm cs i v hi' h0'
    cases c with
    | none => simpa [List.filterMap_cons] using ih
    | some a =>
      simp only [List.set_cons_succ, List.filterMap_cons, id, Option.some.injEq]
      calc a :: (cs.set i (some v)).filterMap id
          ~ a :: v :: cs.filterMap id := ih.cons a
        _ ~ v :: a :: cs.filterMap id := List.Perm.swap _ _ _

theorem mem_set_none {child : List (Option Nat)} {i : Nat} {v w : Nat}
    (hi : i < child.length) (h0 : child.getD i none = none)
    (hw : some w ∈ child) : some w ∈ child.set i (some v) := by
  obtain ⟨j, hj, hget⟩ := List.getElem_of_mem hw
  have hji : i ≠ j := by
    rintro rfl
    rw [getD_of_lt _ _ hi, hget] at h0
    exact Option.some_ne_none w h0
  have hj' : j < (child.set i (some v)).length := by simpa using hj
  have : (child.set i (some v))[j] = some w := by
    rw [List.getElem_set_ne hji]
    exact hget
  exact this ▸ List.getElem_mem hj'

theorem length_filterMap_lt_of_none : ∀ (child : List (Option Nat)) (i : Nat),
    i < child.length → child.getD i none = none →
    (child.filterMap id).length < child.length
  | [], i, hi, _ => absurd hi (by simp)
  | c :: cs, 0, _, h0 => by
    simp only [List.getD_eq_getElem?_getD, List.getElem?_cons_zero, Option.getD_some] at h0
    subst h0
    simp only [List.filterMap_cons, List.length_cons, id]
    exact Nat.lt_succ_of_le (List.length_filterMap_le _ _)
  | c :: cs, i + 1, hi, h0 => by
    have h := length_filterMap_lt_of_none cs i (by simpa using hi) (by simpa using h0)
    cases c with
    | none => simp only [List.filterMap_cons, List.length_cons, id]; omega
    | some a => simp only [List.filterMap_cons, List.length_cons, id]; omega

theorem map_getD_eq_filterMap : ∀ (l : List (Option Nat)),
    (∀ j, j < l.length → l.getD j none ≠ none) →
    l.map (fun o => o.getD 0) = l.filterMap id
  | [], _ => rfl
  | c :: cs, h => by
    have hc : c ≠ none := by
      have := h 0 (by simp)
      simpa using this
    obtain ⟨a, rfl⟩ := Option.ne_none_iff_exists'.mp hc
    have ih := map_getD_eq_filterMap cs (fun j hj => by
      have := h (j + 1) (by simpa using hj)
      simpa using this)
    simp [List.filterMap_cons, ih]

theorem filterMap_ite_eq_map_filter {α β : Type} (P : α → Prop) [DecidablePred P] (g : α → β) :
    ∀ l : List α, (l.filterMap (fun i => if P i then some (g i) else none)) =
      (l.filter (fun i => decide (P i))).map g
  | [] => rfl
  | x :: xs => by
    by_cases h : P x <;>
      simp [List.filterMap_cons, List.filter_cons, h, filterMap_ite_eq_map_filter P g xs]

theorem scan_exhausted_contra (p2 : List Nat) (child : List (Option Nat)) (idx : Nat)
    (hge : p2.length ≤ idx) (hD : ∀ k, k < idx → some (p2.getD k 0) ∈ child)
    (hEx : ∃ v ∈ p2, some v ∉ child) : False := by
  obtain ⟨v, hv, hnot⟩ := hEx
  obtain ⟨j, hj, hget⟩ := List.getElem_of_mem hv
  have := hD j (by omega)
  rw [getD_of_lt _ _ hj, hget] at this
  exact hnot this

theorem scanNext_spec (p2 : List Nat) (child : List (Option Nat)) (idx : Nat)
    (hD : ∀ k, k < idx → some (p2.getD k 0) ∈ child)
    (hEx : ∃ v ∈ p2, some v ∉ child) :
    ∃ j, scanNext child p2 idx = some j ∧ j < p2.length ∧ some (p2.getD j 0) ∉ child ∧
      ∀ k, k < j → some (p2.getD k 0) ∈ child := by
  have main : ∀ (m idx : Nat), p2.length - idx ≤ m →
      (∀ k, k < idx → some (p2.getD k 0) ∈ child) →
      ∃ j, scanNext child p2 idx = some j ∧ j < p2.length ∧ some (p2.getD j 0) ∉ child ∧
        ∀ k, k < j → some (p2.getD k 0) ∈ child := by
    intro m
    induction m with
    | zero =>
      intro idx hm hD'
      exact (scan_exhausted_contra p2 child idx (by omega) hD' hEx).elim
    | succ m ih =>
      intro idx hm hD'
      by_cases hidx : idx < p2.length
      · by_cases hmem : some (p2.getD idx 0) ∈ child
        · obtain ⟨j, hscan, h1, h2, h3⟩ := ih (idx + 1) (by omega) (by
            intro k hk
            rcases (by omega : k < idx ∨ k = idx) with h | rfl
            · exact hD' k h
            · exact hmem)
          refine ⟨j, ?_, h1, h2, h3⟩
          rw [scanNext]
          simp only [hidx, if_true, hmem]
          exact hscan
        · refine ⟨idx, ?_, hidx, hmem, hD'⟩
          rw [scanNext]
          simp only [hidx, if_true, hmem, if_false]
      · exact (scan_exhausted_contra p2 child idx (by omega) hD' hEx).elim
  exact main (p2.length - idx) idx (le_refl _) hD

theorem fillChild_term (p2 : List Nat) (child : List (Option Nat)) (i idx : Nat)
    (h : child.length ≤ i) : fillChild p2 child i idx = some child := by
  rw [fillChild]
  simp [Nat.not_lt.mpr h]

theorem fillChild_spec (p2 : List Nat) (hp2 : p2.Nodup) :
    ∀ (m : Nat) (child : List (Option Nat)) (i idx : Nat),
      child.length - i ≤ m →
      child.length ≤ p2.length →
      (child.filterMap id).Nodup →
      (∀ v ∈ child.filterMap id, v ∈ p2) →
      (∀ k, k < idx → some (p2.getD k 0) ∈ child) →
      (∀ j, j < i → child.getD j none ≠ none) →
      ∃ res, fillChild p2 child i idx = some res ∧
        res.length = child.length ∧
        (∀ j, j < res.length → res.getD j none ≠ none) ∧
        (res.filterMap id).Nodup ∧
        (∀ v ∈ res.filterMap id, v ∈ p2) := by
  intro m
  induction m with
  | zero =>
    intro child i idx hm hlen hnd hsub hD hE
    refine ⟨child, fillChild_term p2 child i idx (by omega), rfl, ?_, hnd, hsub⟩
    intro j hj
    exact hE j (by omega)
  | succ m ih =>
    intro child i idx hm hlen hnd hsub hD hE
    by_cases hi : i < child.length
    · cases hslot : child.getD i none with
      | some a =>
        have hE' : ∀ j, j < i + 1 → child.getD j none ≠ none := by
          intro j hj
          rcases (by omega : j < i ∨ j = i) with h | rfl
          · exact hE j h
          · rw [hslot]; simp
        obtain ⟨res, hres, h1, h2, h3, h4⟩ := ih child (i + 1) idx (by omega) hlen hnd hsub hD hE'
        refine ⟨res, ?_, h1, h2, h3, h4⟩
        rw [fillChild]
        simp only [hi, if_true, hslot]
        exact hres
      | none =>
        have hEx : ∃ v ∈ p2, some v ∉ child := by
          by_contra hall
          push_neg at hall
          have hsub2 : p2 ⊆ child.filterMap id := fun v hv => mem_filterMap_id.mpr (hall v hv)
          have hsp : p2 <+~ child.filterMap id := List.subperm_of_subset hp2 hsub2
          have hle : p2.length ≤ (child.filterMap id).length := hsp.length_le
          have hlt : (child.filterMap id).length < child.length :=
            length_filterMap_lt_of_none child i hi hslot
          omega
        obtain ⟨j, hscan, hjlt, hjnot, hjall⟩ := scanNext_spec p2 child idx hD hEx
        have hperm : ((child.set i (some (p2.getD j 0))).filterMap id).Perm
            (p2.getD j 0 :: child.filterMap id) :=
          filterMap_set_none_perm child i (p2.getD j 0) hi hslot
        have hvp2 : p2.getD j 0 ∈ p2 := by
          rw [getD_of_lt _ _ hjlt]
          exact List.getElem_mem hjlt
        have hnd' : ((child.set i (some (p2.getD j 0))).filterMap id).Nodup := by
          refine hperm.nodup_iff.mpr ?_
          exact List.nodup_cons.mpr ⟨fun hmem => hjnot (mem_filterMap_id.mp hmem), hnd⟩
        have hsub' : ∀ w ∈ (child.set i (some (p2.getD j 0))).filterMap id, w ∈ p2 := by
          intro w hw
          rcases List.mem_cons.mp (hperm.mem_iff.mp hw) with rfl | hw'
          · exact hvp2
          · exact hsub w hw'
        have hD' : ∀ k, k < j → some (p2.getD k 0) ∈ child.set i (some (p2.getD j 0)) := by
          intro k hk
          exact mem_set_none hi hslot (hjall k hk)
        have hE'' : ∀ j', j' < i + 1 →
            (child.set i (some (p2.getD j 0))).getD j' none ≠ none := by
          intro j' hj'
          rcases (by omega : j' < i ∨ j' = i) with h | rfl
          · rw [getD_set_ne _ _ _ (by omega : i ≠ j')]
            exact hE j' h
          · rw [getD_of_lt _ _ (by simpa using hi)]
            simp
        obtain ⟨res, hres, h1, h2, h3, h4⟩ := ih (child.set i (some (p2.getD j 0))) (i + 1) j
          (by simp; omega) (by simpa using hlen) hnd' hsub' hD' hE''
        refine ⟨res, ?_, by simpa using h1, h2, h3, h4⟩
        rw [fillChild]
        simp only [hi, if_true, hslot, hscan]
        exact hres
    · refine ⟨child, fillChild_term p2 child i idx (by omega), rfl, ?_, hnd, hsub⟩
      intro j hj
      exact hE j (by omega)

theorem breed_spec (n : Nat) (p1 p2 : List Nat) (h1 : p1.Perm (List.range n))
    (h2 : p2.Perm (List.range n)) (c1 c2 : Nat) :
    ∃ child, breed p1 p2 c1 c2 = some child ∧ child.Perm (List.range n) := by
  have hlen1 : p1.length = n := by simpa using h1.length_eq
  have hlen2 : p2.length = n := by simpa using h2.length_eq
  have hnd1 : p1.Nodup := h1.nodup_iff.mpr (List.nodup_range n)
  have hnd2 : p2.Nodup := h2.nodup_iff.mpr (List.nodup_range n)
  have hvals0 : ∀ (start stop : Nat),
      (((List.range p1.length).map (fun i =>
        if start ≤ i ∧ i < stop then some (p1.getD i 0) else none)).filterMap id) =
      ((List.range p1.length).filter
        (fun i => decide (start ≤ i ∧ i < stop))).map (fun i => p1.getD i 0) := by
    intro start stop
    rw [List.filterMap_map]
    have : (id ∘ fun i => if start ≤ i ∧ i < stop then some (p1.getD i 0) else none) =
        (fun i => if start ≤ i ∧ i < stop then some (p1.getD i 0) else none) := rfl
    rw [this, filterMap_ite_eq_map_filter]
  have hinit : ∀ (start stop : Nat),
      ((((List.range p1.length).map (fun i =>
        if start ≤ i ∧ i < stop then some (p1.getD i 0) else none)).filterMap id).Nodup) ∧
      (∀ v ∈ ((List.range p1.length).map (fun i =>
        if start ≤ i ∧ i < stop then some (p1.getD i 0) else none)).filterMap id, v ∈ p2) := by
    intro start stop
    rw [hvals0]
    constructor
    · refine List.Nodup.map_on ?_ ((List.nodup_range p1.length).filter _)
      intro x hx y hy hxy
      have hxr : x < p1.length := by
        have := List.mem_of_mem_filter hx
        simpa using this
      have hyr : y < p1.length := by
        have := List.mem_of_mem_filter hy
        simpa using this
      rw [getD_of_lt _ _ hxr, getD_of_lt _ _ hyr] at hxy
      exact (hnd1.getElem_inj_iff).mp hxy
    · intro v hv
      simp only [List.mem_map] at hv
      obtain ⟨x, hx, rfl⟩ := hv
      have hxr : x < p1.length := by
        have := List.mem_of_mem_filter hx
        simpa using this
      rw [getD_of_lt _ _ hxr]
      have hp1 : p1[x] ∈ p1 := List.getElem_mem hxr
      exact h2.mem_iff.mpr (h1.mem_iff.mp hp1)
  obtain ⟨hnd0, hsub0⟩ := hinit (min (c1 % p1.length) (c2 % p1.length))
    (max (c1 % p1.length) (c2 % p1.length))
  obtain ⟨res, hfill, hlen, hfilled, hndres, hsubres⟩ := fillChild_spec p2 hnd2
    (((List.range p1.length).map (fun i =>
      if min (c1 % p1.length) (c2 % p1.length) ≤ i ∧
        i < max (c1 % p1.length) (c2 % p1.length) then some (p1.getD i 0) else none)).length)
    ((List.range p1.length).map (fun i =>
      if min (c1 % p1.length) (c2 % p1.length) ≤ i ∧
        i < max (c1 % p1.length) (c2 % p1.length) then some (p1.getD i 0) else none))
    0 0 (by omega) (by simp [hlen1, hlen2]) hnd0 hsub0
    (by intro k hk; omega) (by intro j hj; omega)
  refine ⟨res.map (fun o => o.getD 0), ?_, ?_⟩
  · simp only [breed]
    rw [hfill]
    rfl
  · rw [map_getD_eq_filterMap res hfilled]
    have hlenvals : (res.filterMap id).length = n := by
      have hmaplen : (res.map (fun o => o.getD 0)).length = res.length := List.length_map _ _
      rw [map_getD_eq_filterMap res hfilled] at hmaplen
      rw [hmaplen, hlen]
      simp [hlen1]
    have hsubr : res.filterMap id ⊆ List.range n := by
      intro v hv
      exact h2.mem_iff.mp (hsubres v hv)
    have hsp : res.filterMap id <+~ List.range n := List.subperm_of_subset hndres hsubr
    exact hsp.perm_of_length_le (by simp [hlenvals])

/-- C1: permutation invariant — every route produced by
`create_initial_population` is a permutation of `[0, N)`; `breed` on two
permutation parents returns a permutation of `[0, N)`; `mutate` on a
permutation returns a permutation of `[0, N)`. -/
theorem c1_permutation_invariant (n pop_size : Nat) (hn : 1 ≤ n)
    (r : Nat → Nat → Nat)
    (p1 p2 : List Nat) (hp1 : p1.Perm (List.range n)) (hp2 : p2.Perm (List.range n))
    (c1 c2 : Nat)
    (route : List Nat) (hroute : route.Perm (List.range n))
    (fire : Nat → Bool) (tgt : Nat → Nat) :
    (∀ q ∈ create_initial_population pop_size n r, q.Perm (List.range n)) ∧
    (∃ child, breed p1 p2 c1 c2 = some child ∧ child.Perm (List.range n)) ∧
    (mutate route fire tgt).Perm (List.range n) :=
  ⟨create_initial_population_perm pop_size n r,
   breed_spec n p1 p2 hp1 hp2 c1 c2,
   (mutate_perm route fire tgt).trans hroute⟩

/-- C1 witness: concrete two-city instances of all three operators. -/
theorem c1_permutation_invariant_witness :
    (∀ q ∈ create_initial_population 1 2 (fun _ _ => 0), q.Perm (List.range 2)) ∧
    (∃ child, breed [0, 1] [1, 0] 0 0 = some child ∧ child.Perm (List.range 2)) ∧
    (mutate [0, 1] (fun _ => false) (fun _ => 0)).Perm (List.range 2) :=
  c1_permutation_invariant 2 1 (by decide) (fun _ _ => 0) [0, 1] [1, 0] (by decide)
    (by decide) 0 0 [0, 1] (by decide) (fun _ => false) (fun _ => 0)

/-- C9: on two permutation parents of `[0, N)` with `N ≥ 1` the fill loop
of `breed` never reads past the end of `parent2`: `breed` returns a result
instead of the `none` that models the `IndexError` of the scan. -/
theorem c9_breed_total (n : Nat) (hn : 1 ≤ n) (p1 p2 : List Nat)
    (hp1 : p1.Perm (List.range n)) (hp2 : p2.Perm (List.range n)) (c1 c2 : Nat) :
    ∃ child, breed p1 p2 c1 c2 = some child :=
  let ⟨c, hc, _⟩ := breed_spec n p1 p2 hp1 hp2 c1 c2
  ⟨c, hc⟩

/-- C9 witness: a concrete pair of permutation parents. -/
theorem c9_breed_total_witness : ∃ child, breed [0, 1, 2] [2, 0, 1] 1 2 = some child :=
  c9_breed_total 3 (by decide) [0, 1, 2] [2, 0, 1] (by decide) (by decide) 1 2

/-- Oracle for one generation's random draws: for the `k`-th bred child,
`parentA k` / `parentB k` model the two `random.choice` draws (reduced to
an index into `scored_pop[:50]`), `cutA k` / `cutB k` the two cut draws
inside `breed`, and `fire k` / `target k` the per-position draws inside
`mutate`. -/
structure StepRand where
  parentA : Nat → Nat
  parentB : Nat → Nat
  cutA : Nat → Nat
  cutB : Nat → Nat
  fire : Nat → Nat → Bool
  target : Nat → Nat → Nat

/-- Comparison relation of the ranking sort
(`scored_pop.sort(key=lambda x: x[0])`): compare scored routes by cost. -/
def scoreLE (a b : ℝ × List Nat) : Prop := a.1 ≤ b.1

noncomputable instance : DecidableRel scoreLE := fun a b =>
  inferInstanceAs (Decidable (a.1 ≤ b.1))

instance : IsTotal (ℝ × List Nat) scoreLE := ⟨fun a b => le_total a.1 b.1⟩

instance : IsTrans (ℝ × List Nat) scoreLE := ⟨fun _ _ _ => le_trans⟩

/-- The slice `scored_pop[:50]` from which both parents are drawn. -/
def tournamentPool (scored : List (ℝ × List Nat)) : List (ℝ × List Nat) :=
  scored.take 50

/-- One `random.choice(scored_pop[:50])[1]` draw: oracle value `k`,
reduced modulo the pool size, picks the parent route; every index of the
pool is a possible outcome of the uniform draw. -/
noncomputable def selectParent (scored : List (ℝ × List Nat)) (k : Nat) : List Nat :=
  ((tournamentPool scored).getD (k % (tournamentPool scored).length) (0, [])).2

/-- The breeding loop (`while len(new_pop) < req.pop_size`): draw two
parents from `scored_pop[:50]`, breed, mutate, append.  `none` models the
exceptions the source can raise here: `random.choice` on an empty pool and
the `IndexError` of the `breed` scan.  `k` counts the bred children so
each iteration uses fresh oracle draws. -/
noncomputable def breedLoop (pop_size : Nat) (scored : List (ℝ × List Nat)) (sr : StepRand)
    (new_pop : List (List Nat)) (k : Nat) : Option (List (List Nat)) :=
  if new_pop.length < pop_size then
    if (tournamentPool scored).isEmpty then none
    else
      match breed (selectParent scored (sr.parentA k)) (selectParent scored (sr.parentB k))
        (sr.cutA k) (sr.cutB k) with
      | none => none
      | some child0 =>
        breedLoop pop_size scored sr (new_pop ++ [mutate child0 (sr.fire k) (sr.target k)])
          (k + 1)
  else some new_pop
termination_by pop_size - new_pop.length
decreasing_by simp; omega

/-- One iteration of the source's generation loop: score every individual,
sort ascending by score (the source's stable `sort` is modelled by the
stable `insertionSort`), carry the first 10 of the sorted population
unchanged (elitism), then breed and mutate until the next population
reaches `pop_size`. -/
noncomputable def generationStep (cities : List Point) (obstacles : List Obstacle)
    (pop_size : Nat) (sr : StepRand) (pop : List (List Nat)) : Option (List (List Nat)) :=
  let scored := pop.map (fun individual =>
    (get_route_distance individual cities obstacles, individual))
  let sorted := List.insertionSort scoreLE scored
  let new_pop := (sorted.take 10).map (fun x => x.2)
  breedLoop pop_size sorted sr new_pop 0

/-- The `for _ in range(req.generations_per_step)` loop; the oracle of the
first remaining generation is `rng 0` and the rest are shifted. -/
noncomputable def evolveLoop (cities : List Point) (obstacles : List Obstacle)
    (pop_size : Nat) (rng : Nat → StepRand) :
    Nat → List (List Nat) → Option (List (List Nat))
  | 0, pop => some pop
  | g + 1, pop =>
    match generationStep cities obstacles pop_size (rng 0) pop with
    | none => none
    | some pop1 => evolveLoop cities obstacles pop_size (fun t => rng (t + 1)) g pop1

/-- The population the generation loop starts from: the caller's, unless it
is absent or empty, in which case a fresh one is created. -/
def startingPop (cities_len : Nat) (population : List (List Nat)) (pop_size : Nat)
    (shuffleR : Nat → Nat → Nat) : List (List Nat) :=
  if population.isEmpty then create_initial_population pop_size cities_len shuffleR
  else population

/-- Model of the `evolve` endpoint body: guard on fewer than 2 cities,
initialize the population when none is supplied, run the generation loop,
then return the first individual of the final population with its freshly
recomputed cost and a placeholder generation count of 0.  `none` models an
uncaught exception (`current_pop[0]` on an empty final population, or a
breeding failure). -/
noncomputable def evolve (cities : List Point) (obstacles : List Obstacle)
    (population : List (List Nat)) (pop_size : Nat) (mutation_rate : ℝ)
    (generations_per_step : Nat) (shuffleR : Nat → Nat → Nat) (rng : Nat → StepRand) :
    Option EvolveResponse :=
  if cities.length < 2 then some ⟨[], [], 0, 0⟩
  else
    match evolveLoop cities obstacles pop_size rng generations_per_step
      (startingPop cities.length population pop_size shuffleR) with
    | none => none
    | some finalPop =>
      match finalPop with
      | [] => none
      | best :: _ => some ⟨finalPop, best, get_route_distance best cities obstacles, 0⟩

theorem breedLoop_extends (pop_size : Nat) (scored : List (ℝ × List Nat)) (sr : StepRand) :
    ∀ (m : Nat) (acc : List (List Nat)) (k : Nat) (out : List (List Nat)),
      pop_size - acc.length ≤ m →
      breedLoop pop_size scored sr acc k = some out →
      ∃ tail, out = acc ++ tail := by
  intro m
  induction m with
  | zero =>
    intro acc k out hm hbl
    rw [breedLoop, if_neg (by omega)] at hbl
    cases hbl
    exact ⟨[], by simp⟩
  | succ m ih =>
    intro acc k out hm hbl
    by_cases hlt : acc.length < pop_size
    · rw [breedLoop, if_pos hlt] at hbl
      by_cases hpool : (tournamentPool scored).isEmpty
      · rw [if_pos hpool] at hbl
        cases hbl
      · rw [if_neg hpool] at hbl
        cases hbr : breed (selectParent scored (sr.parentA k)) (selectParent scored (sr.parentB k))
            (sr.cutA k) (sr.cutB k) with
        | none => rw [hbr] at hbl; cases hbl
        | some child0 =>
          rw [hbr] at hbl
          obtain ⟨tail, htail⟩ := ih _ (k + 1) out (by simp; omega) hbl
          exact ⟨mutate child0 (sr.fire k) (sr.target k) :: tail, by simp [htail]⟩
    · rw [breedLoop, if_neg hlt] at hbl
      cases hbl
      exact ⟨[], by simp⟩

theorem breedLoop_length (pop_size : Nat) (scored : List (ℝ × List Nat)) (sr : StepRand) :
    ∀ (m : Nat) (acc : List (List Nat)) (k : Nat) (out : List (List Nat)),
      pop_size - acc.length ≤ m →
      acc.length ≤ pop_size →
      breedLoop pop_size scored sr acc k = some out →
      out.length = pop_size := by
  intro m
  induction m with
  | zero =>
    intro acc k out hm hle hbl
    rw [breedLoop, if_neg (by omega)] at hbl
    cases hbl
    omega
  | succ m ih =>
    intro acc k out hm hle hbl
    by_cases hlt : acc.length < pop_size
    · rw [breedLoop, if_pos hlt] at hbl
      by_cases hpool : (tournamentPool scored).isEmpty
      · rw [if_pos hpool] at hbl
        cases hbl
      · rw [if_neg hpool] at hbl
        cases hbr : breed (selectParent scored (sr.parentA k)) (selectParent scored (sr.parentB k))
            (sr.cutA k) (sr.cutB k) with
        | none => rw [hbr] at hbl; cases hbl
        | some child0 =>
          rw [hbr] at hbl
          exact ih _ (k + 1) out (by simp; omega) (by simp; omega) hbl
    · rw [breedLoop, if_neg hlt] at hbl
      cases hbl
      omega

theorem breedLoop_full (pop_size : Nat) (scored : List (ℝ × List Nat)) (sr : StepRand)
    (acc : List (List Nat)) (k : Nat) (out : List (List Nat))
    (hge : pop_size ≤ acc.length)
    (hbl : breedLoop pop_size scored sr acc k = some out) : out = acc := by
  rw [breedLoop, if_neg (by omega)] at hbl
  cases hbl
  rfl

/-- C4: a generation step with `pop_size ≥ 10` on a non-empty input
population returns exactly `pop_size` routes. -/
theorem c4_population_size (cities : List Point) (obstacles : List Obstacle)
    (pop_size : Nat) (sr : StepRand) (pop out : List (List Nat))
    (h10 : 10 ≤ pop_size) (hne : pop ≠ [])
    (hstep : generationStep cities obstacles pop_size sr pop = some out) :
    out.length = pop_size := by
  simp only [generationStep] at hstep
  refine breedLoop_length pop_size _ sr pop_size _ 0 out (by omega) ?_ hstep
  simp [List.length_take, List.length_insertionSort]
  omega

/-- C4 witness: ten identical two-city routes with `pop_size = 10`; the
elitism slice already fills the next population, so no breeding happens. -/
theorem c4_population_size_witness :
    ([[0, 1], [0, 1], [0, 1], [0, 1], [0, 1], [0, 1], [0, 1], [0, 1], [0, 1], [0, 1]] :
      List (List Nat)).length = 10 := by
  have hstep : generationStep [⟨0, 0⟩, ⟨1, 0⟩] [] 10
      ⟨fun _ => 0, fun _ => 0, fun _ => 0, fun _ => 0, fun _ _ => false, fun _ _ => 0⟩
      [[0, 1], [0, 1], [0, 1], [0, 1], [0, 1], [0, 1], [0, 1], [0, 1], [0, 1], [0, 1]] =
      some [[0, 1], [0, 1], [0, 1], [0, 1], [0, 1], [0, 1], [0, 1], [0, 1], [0, 1], [0, 1]] := by
    simp [generationStep, List.insertionSort, List.orderedInsert]
    rw [breedLoop]
    simp
  exact c4_population_size [⟨0, 0⟩, ⟨1, 0⟩] [] 10 _ _ _ (by decide) (by simp) hstep

/-- C10: when the input population is larger than `pop_size` and
`pop_size < 10`, a generation step returns the whole elitism slice —
`max pop_size (min 10 (input size))` routes, strictly more than
`pop_size`: the slice is taken before the size check and the loop never
removes routes. -/
theorem c10_oversized_output (cities : List Point) (obstacles : List Obstacle)
    (pop_size : Nat) (sr : StepRand) (pop out : List (List Nat))
    (hover : pop_size < pop.length) (hsmall : pop_size < 10)
    (hstep : generationStep cities obstacles pop_size sr pop = some out) :
    out.length = max pop_size (min 10 pop.length) ∧ pop_size < out.length := by
  simp only [generationStep] at hstep
  have hellen : (((List.insertionSort scoreLE (pop.map (fun individual =>
      (get_route_distance individual cities obstacles, individual)))).take 10).map
      (fun x => x.2)).length = min 10 pop.length := by
    simp [List.length_take, List.length_insertionSort]
  have hout := breedLoop_full pop_size _ sr _ 0 out (by omega) hstep
  rw [hout, hellen]
  omega

/-- C10 witness: two routes with `pop_size = 1`: the output keeps both. -/
theorem c10_oversized_output_witness :
    (([[0, 1], [0, 1]] : List (List Nat)).length = max 1 (min 10 2) ∧
      1 < ([[0, 1], [0, 1]] : List (List Nat)).length) := by
  have hstep : generationStep [⟨0, 0⟩, ⟨1, 0⟩] [] 1
      ⟨fun _ => 0, fun _ => 0, fun _ => 0, fun _ => 0, fun _ _ => false, fun _ _ => 0⟩
      [[0, 1], [0, 1]] = some [[0, 1], [0, 1]] := by
    simp [generationStep, List.insertionSort, List.orderedInsert]
    rw [breedLoop]
    simp
  exact c10_oversized_output [⟨0, 0⟩, ⟨1, 0⟩] [] 1 _ _ _ (by decide) (by decide) hstep

theorem generationStep_min_head (cities : List Point) (obstacles : List Obstacle)
    (pop_size : Nat) (sr : StepRand) (pop out : List (List Nat))
    (hne : pop ≠ [])
    (hstep : generationStep cities obstacles pop_size sr pop = some out) :
    ∃ b tail, out = b :: tail ∧
      ∀ s ∈ pop, get_route_distance b cities obstacles ≤
        get_route_distance s cities obstacles := by
  simp only [generationStep] at hstep
  have hsortlen : (List.insertionSort scoreLE (pop.map (fun individual =>
      (get_route_distance individual cities obstacles, individual)))).length = pop.length := by
    simp [List.length_insertionSort]
  cases hsort : List.insertionSort scoreLE (pop.map (fun individual =>
      (get_route_distance individual cities obstacles, individual))) with
  | nil =>
    rw [hsort] at hsortlen
    exact absurd (List.length_eq_zero.mp hsortlen.symm) hne
  | cons hd tl =>
    rw [hsort] at hstep
    simp only [List.take_succ_cons, List.map_cons] at hstep
    obtain ⟨tail2, htail2⟩ := breedLoop_extends pop_size _ sr pop_size _ 0 out (by omega) hstep
    refine ⟨hd.2, (tl.take 9).map (fun x => x.2) ++ tail2, by simpa using htail2, ?_⟩
    have hperm := List.perm_insertionSort scoreLE (pop.map (fun individual =>
      (get_route_distance individual cities obstacles, individual)))
    rw [hsort] at hperm
    have hsorted := List.sorted_insertionSort scoreLE (pop.map (fun individual =>
      (get_route_distance individual cities obstacles, individual)))
    rw [hsort] at hsorted
    have hdmem : hd ∈ pop.map (fun individual =>
        (get_route_distance individual cities obstacles, individual)) :=
      hperm.mem_iff.mp (List.mem_cons_self hd tl)
    obtain ⟨a, _, ha⟩ := List.mem_map.mp hdmem
    have hd1 : hd.1 = get_route_distance hd.2 cities obstacles := by
      rw [← ha]
    intro s hs
    have hsmem : (get_route_distance s cities obstacles, s) ∈ hd :: tl :=
      hperm.mem_iff.mpr (List.mem_map.mpr ⟨s, hs, rfl⟩)
    rcases List.mem_cons.mp hsmem with heq | htl
    · rw [← hd1, ← heq]
    · have := List.rel_of_sorted_cons hsorted _ htl
      rw [← hd1]
      exact this

/-- C7: elitism non-regression — a generation step on an input population
of at least 10 routes returns a population containing a route whose cost
is at most the cost of every input route, so the minimum cost never gets
worse across one step, for every outcome of the random draws. -/
theorem c7_elitism_non_regression (cities : List Point) (obstacles : List Obstacle)
    (pop_size : Nat) (sr : StepRand) (pop out : List (List Nat))
    (hlen : 10 ≤ pop.length)
    (hstep : generationStep cities obstacles pop_size sr pop = some out) :
    ∃ r ∈ out, ∀ s ∈ pop, get_route_distance r cities obstacles ≤
      get_route_distance s cities obstacles := by
  have hne : pop ≠ [] := by
    intro h
    rw [h] at hlen
    simp at hlen
  obtain ⟨b, tail, hout, hmin⟩ := generationStep_min_head cities obstacles pop_size sr pop out
    hne hstep
  exact ⟨b, by rw [hout]; exact List.mem_cons_self b tail, hmin⟩

/-- C7 witness: ten identical two-city routes, `pop_size = 10`. -/
theorem c7_elitism_non_regression_witness :
    ∃ r ∈ ([[0, 1], [0, 1], [0, 1], [0, 1], [0, 1], [0, 1], [0, 1], [0, 1], [0, 1], [0, 1]] :
      List (List Nat)), ∀ s ∈ ([[0, 1], [0, 1], [0, 1], [0, 1], [0, 1], [0, 1], [0, 1],
        [0, 1], [0, 1], [0, 1]] : List (List Nat)),
      get_route_distance r [⟨0, 0⟩, ⟨1, 0⟩] [] ≤ get_route_distance s [⟨0, 0⟩, ⟨1, 0⟩] [] := by
  have hstep : generationStep [⟨0, 0⟩, ⟨1, 0⟩] [] 10
      ⟨fun _ => 0, fun _ => 0, fun _ => 0, fun _ => 0, fun _ _ => false, fun _ _ => 0⟩
      [[0, 1], [0, 1], [0, 1], [0, 1], [0, 1], [0, 1], [0, 1], [0, 1], [0, 1], [0, 1]] =
      some [[0, 1], [0, 1], [0, 1], [0, 1], [0, 1], [0, 1], [0, 1], [0, 1], [0, 1], [0, 1]] := by
    simp [generationStep, List.insertionSort, List.orderedInsert]
    rw [breedLoop]
    simp
  exact c7_elitism_non_regression [⟨0, 0⟩, ⟨1, 0⟩] [] 10 _ _ _ (by decide) hstep

/-- A fixed all-zeros oracle, used to instantiate random draws in concrete
runs. -/
def zeroRand : StepRand :=
  ⟨fun _ => 0, fun _ => 0, fun _ => 0, fun _ => 0, fun _ _ => false, fun _ _ => 0⟩

/-- C6: with fewer than 2 cities, `evolve` short-circuits to the exact
degenerate response — empty population, empty best route, distance 0,
generation 0 — for every population, configuration and oracle, so no
generation step, initialization or fitness evaluation can influence the
result. -/
theorem c6_degenerate_input (cities : List Point) (obstacles : List Obstacle)
    (population : List (List Nat)) (pop_size : Nat) (mutation_rate : ℝ)
    (generations_per_step : Nat) (shuffleR : Nat → Nat → Nat) (rng : Nat → StepRand)
    (h2 : cities.length < 2) :
    evolve cities obstacles population pop_size mutation_rate generations_per_step
      shuffleR rng = some ⟨[], [], 0, 0⟩ := by
  simp [evolve, h2]

/-- C6 witness: a single-city request. -/
theorem c6_degenerate_input_witness :
    evolve [⟨0, 0⟩] [] [[0]] 100 0 10 (fun _ _ => 0) (fun _ => zeroRand) =
      some ⟨[], [], 0, 0⟩ :=
  c6_degenerate_input [⟨0, 0⟩] [] [[0]] 100 0 10 (fun _ _ => 0) (fun _ => zeroRand)
    (by decide)

theorem evolveLoop_succ (cities : List Point) (obstacles : List Obstacle) (pop_size : Nat) :
    ∀ (g : Nat) (rng : Nat → StepRand) (pop : List (List Nat)),
    evolveLoop cities obstacles pop_size rng (g + 1) pop =
      match evolveLoop cities obstacles pop_size rng g pop with
      | none => none
      | some pop1 => generationStep cities obstacles pop_size (rng g) pop1 := by
  intro g
  induction g with
  | zero =>
    intro rng pop
    simp only [evolveLoop]
    cases generationStep cities obstacles pop_size (rng 0) pop with
    | none => rfl
    | some pop1 => rfl
  | succ g ih =>
    intro rng pop
    rw [show g + 1 + 1 = (g + 1) + 1 from rfl]
    simp only [evolveLoop]
    cases generationStep cities obstacles pop_size (rng 0) pop with
    | none => rfl
    | some pop1 => exact ih (fun t => rng (t + 1)) pop1

/-- Four cities on a unit square; the optimal closed tour has length 4. -/
noncomputable def sq4 : List Point := [⟨0, 0⟩, ⟨1, 0⟩, ⟨1, 1⟩, ⟨0, 1⟩]

/-- A caller-supplied population whose first route is the crossing (worse)
square tour and whose second is the optimal one. -/
def demoPop : List (List Nat) := [[0, 2, 1, 3], [0, 1, 2, 3]]

theorem cost_sq4_good : get_route_distance [0, 1, 2, 3] sq4 [] = 4 := by
  simp [get_route_distance, edgeEnds, edgePenalty, calculate_distance, sq4, List.range_succ]
  norm_num

theorem cost_sq4_bad : get_route_distance [0, 2, 1, 3] sq4 [] = 2 + 2 * Real.sqrt 2 := by
  simp [get_route_distance, edgeEnds, edgePenalty, calculate_distance, sq4, List.range_succ]
  norm_num [Real.sqrt_one]
  ring

/-- C3 counterexample: with `generations_per_step = 0` the caller's
population is returned untouched and never ranked, so the first element of
the final population — here the crossing tour `[0, 2, 1, 3]` of cost
`2 + 2·√2` — does not have minimal cost in that population, which also
contains `[0, 1, 2, 3]` of cost 4. -/
theorem c3_counterexample :
    evolve sq4 [] demoPop 2 0 0 (fun _ _ => 0) (fun _ => zeroRand) =
      some ⟨demoPop, [0, 2, 1, 3], get_route_distance [0, 2, 1, 3] sq4 [], 0⟩ ∧
    [0, 1, 2, 3] ∈ demoPop ∧
    get_route_distance [0, 1, 2, 3] sq4 [] < get_route_distance [0, 2, 1, 3] sq4 [] := by
  refine ⟨?_, by simp [demoPop], ?_⟩
  · simp [evolve, startingPop, evolveLoop, demoPop, sq4]
  · rw [cost_sq4_good, cost_sq4_bad]
    have h2 : (1 : ℝ) < Real.sqrt 2 := by
      rw [show (1 : ℝ) = Real.sqrt 1 from (Real.sqrt_one).symm]
      exact Real.sqrt_lt_sqrt (by norm_num) (by norm_num)
    linarith

/-- C3 amended: for every `generations_per_step` (including 0) the
returned `best_distance` equals the freshly recomputed cost of the first
element of the final population; and whenever at least one generation
runs, that first element attains minimal cost over the input population
of the last generation step (whose elites are placed at the front).  It
need not be minimal over the final population itself: children bred in
the last generation are appended unsorted, and with
`generations_per_step = 0` the population is never ranked at all. -/
theorem c3_amended_best (cities : List Point) (obstacles : List Obstacle)
    (population : List (List Nat)) (pop_size : Nat) (mutation_rate : ℝ)
    (gens : Nat) (shuffleR : Nat → Nat → Nat) (rng : Nat → StepRand)
    (resp : EvolveResponse)
    (hresp : evolve cities obstacles population pop_size mutation_rate gens shuffleR rng =
      some resp) :
    resp.best_distance = get_route_distance resp.best_route cities obstacles ∧
    (1 ≤ gens → ∀ prev, evolveLoop cities obstacles pop_size rng (gens - 1)
      (startingPop cities.length population pop_size shuffleR) = some prev →
      ∀ s ∈ prev, get_route_distance resp.best_route cities obstacles ≤
        get_route_distance s cities obstacles) := by
  by_cases h2 : cities.length < 2
  · simp only [evolve, if_pos h2, Option.some.injEq] at hresp
    subst hresp
    constructor
    · simp [get_route_distance]
    · intro hg prev hprev s hs
      have h0 : get_route_distance ([] : List Nat) cities obstacles = 0 := by
        simp [get_route_distance]
      rw [h0]
      exact get_route_distance_nonneg s cities obstacles
  · simp only [evolve, if_neg h2] at hresp
    cases hloop : evolveLoop cities obstacles pop_size rng gens
        (startingPop cities.length population pop_size shuffleR) with
    | none => rw [hloop] at hresp; cases hresp
    | some finalPop =>
      rw [hloop] at hresp
      cases finalPop with
      | nil => cases hresp
      | cons best rest =>
        simp only [Option.some.injEq] at hresp
        subst hresp
        refine ⟨rfl, ?_⟩
        intro hg prev hprev s hs
        obtain ⟨g', rfl⟩ : ∃ g', gens = g' + 1 := ⟨gens - 1, by omega⟩
        simp only [Nat.add_sub_cancel] at hprev
        rw [evolveLoop_succ, hprev] at hloop
        dsimp only at hloop
        have hprevne : prev ≠ [] := by
          intro h
          rw [h] at hs
          cases hs
        obtain ⟨b, tail, hout, hmin⟩ := generationStep_min_head cities obstacles pop_size
          (rng g') prev (best :: rest) hprevne hloop
        have hb : best = b := by
          injection hout
        rw [hb]
        exact hmin s hs

/-- C3 amended witness: one generation on a single two-city route. -/
theorem c3_amended_best_witness :
    (get_route_distance [0, 1] [⟨0, 0⟩, ⟨1, 0⟩] [] =
      get_route_distance [0, 1] [⟨0, 0⟩, ⟨1, 0⟩] []) ∧
    (1 ≤ 1 → ∀ prev, evolveLoop [⟨0, 0⟩, ⟨1, 0⟩] [] 1 (fun _ => zeroRand) (1 - 1)
      (startingPop ([⟨0, 0⟩, ⟨1, 0⟩] : List Point).length [[0, 1]] 1 (fun _ _ => 0)) =
        some prev →
      ∀ s ∈ prev, get_route_distance [0, 1] [⟨0, 0⟩, ⟨1, 0⟩] [] ≤
        get_route_distance s [⟨0, 0⟩, ⟨1, 0⟩] []) :=
  c3_amended_best [⟨0, 0⟩, ⟨1, 0⟩] [] [[0, 1]] 1 0 1 (fun _ _ => 0) (fun _ => zeroRand)
    ⟨[[0, 1]], [0, 1], get_route_distance [0, 1] [⟨0, 0⟩, ⟨1, 0⟩] [], 0⟩
    (by
      simp [evolve, startingPop, evolveLoop, generationStep, List.insertionSort,
        List.orderedInsert]
      rw [breedLoop]
      simp)

/-- A ranked population of 20 scored routes with distinct costs 0..19 and
distinct one-element markers as routes, standing for the sorted
`scored_pop` of a generation step with `pop_size = 20`. -/
noncomputable def demoScored20 : List (ℝ × List Nat) :=
  (List.range 20).map (fun i : Nat => ((i : ℝ), ([i] : List Nat)))

/-- C2: the source draws both parents from `scored_pop[:50]` — a literal
50, not `pop_size / 2` — so with `pop_size = 20` the tournament pool is
the entire ranked population of 20 routes, and the draw `k = 15` selects
the parent of ranked index 15, which is not below `20 / 2 = 10`: parents
are not confined to the top half of the ranking. -/
theorem c2_parent_beyond_half :
    tournamentPool demoScored20 = demoScored20 ∧
    selectParent demoScored20 15 = [15] ∧ ¬(15 < 20 / 2) := by
  have hpool : tournamentPool demoScored20 = demoScored20 := by
    apply List.take_of_length_le
    simp [demoScored20]
  refine ⟨hpool, ?_, by decide⟩
  rw [selectParent, hpool]
  have hlen : demoScored20.length = 20 := by simp [demoScored20]
  rw [hlen]
  norm_num [demoScored20, List.getElem?_map, List.getElem?_range]
